/-
Verification of the SNAP genome index (GenomeIndex.h) against its
specification.  The repository ships only the class declaration, so the
behaviour of the builder, the lookup routines and the directory store is
modelled from the specification document, faithful to its words; the
constants (format version, largest seed size, largest key size) and the
overflow-reference convention (slot values greater than the number of
bases in the genome point into the overflow table) come from the header
itself.
-/
import Mathlib

set_option maxHeartbeats 1000000

namespace SnapIndex

/-- A genome base: the four nucleotides plus an unresolved base. -/
inductive Base where
  | A | C | G | T | N
deriving DecidableEq

/-- An unresolved base cannot take part in a seed. -/
def Base.isResolved : Base → Bool
  | .N => false
  | _ => true

/-- Watson-Crick complement; the unresolved base is its own complement. -/
def Base.complement : Base → Base
  | .A => .T
  | .C => .G
  | .G => .C
  | .T => .A
  | .N => .N

/-- Modelled from the spec: the Seed collaborator exposes a
reverse-complement transform on fixed-length base strings. -/
def reverseComplement (s : List Base) : List Base :=
  (s.map Base.complement).reverse

/-- Two-bit code of a base used in the packed seed value. -/
def baseCode : Base → Nat
  | .A => 0
  | .C => 1
  | .G => 2
  | .T => 3
  | .N => 0

/-- Modelled from the spec: the Seed collaborator packs a k-mer into an
integer value, two bits per base, leftmost base in the high bits; the
index only consumes this integer value. -/
def seedValue : List Base → Nat
  | [] => 0
  | b :: rest => baseCode b * 4 ^ rest.length + seedValue rest

/-- The window of length L starting at position p, if it lies fully inside
the genome and contains no unresolved base. -/
def seedAt (g : List Base) (L p : Nat) : Option (List Base) :=
  let w := (g.drop p).take L
  if w.length = L ∧ w.all Base.isResolved = true then some w else none

/-- Straightforward linear scan: all positions whose window equals the
given seed. -/
def occurrencesS (g : List Base) (L : Nat) (s : List Base) : List Nat :=
  (List.range g.length).filter (fun p => decide (seedAt g L p = some s))

/-- Straightforward linear scan at the level of packed seed values. -/
def occurrencesV (g : List Base) (L v : Nat) : List Nat :=
  (List.range g.length).filter
    (fun p => decide ((seedAt g L p).map seedValue = some v))

/-- The build scan over one genome chunk: every valid seed paired with its
position, in position order. -/
def chunkScan (g : List Base) (L a len : Nat) : List (Nat × Nat) :=
  (List.range' a len).filterMap
    (fun p => (seedAt g L p).map (fun w => (seedValue w, p)))

/-- The single-threaded build scan over the whole genome. -/
def scanPairs (g : List Base) (L : Nat) : List (Nat × Nat) :=
  (List.range g.length).filterMap
    (fun p => (seedAt g L p).map (fun w => (seedValue w, p)))

/-- Modelled from the spec: the parallel build scan splits the genome into
maxThreads contiguous disjoint covering chunks, one worker each, and the
per-chunk seed/position streams are concatenated. -/
def threadScan (g : List Base) (L t : Nat) : List (Nat × Nat) :=
  ((List.range t).map (fun i =>
    chunkScan g L (g.length * i / t) (g.length * (i + 1) / t - g.length * i / t))).flatten

/-- All positions recorded for one seed value in a scan stream. -/
def positionsOf (v : Nat) : List (Nat × Nat) → List Nat
  | [] => []
  | (w, p) :: rest => if w = v then p :: positionsOf v rest else positionsOf v rest

/-- The per-seed grouping performed by the overflow builder: each distinct
seed value with the list of its recorded positions. -/
def entriesOf (P : List (Nat × Nat)) : List (Nat × List Nat) :=
  (P.map Prod.fst).dedup.map (fun w => (w, positionsOf w P))

/-- Descending-order sort used by the overflow finalization. -/
def sortDesc (l : List Nat) : List Nat :=
  l.insertionSort (fun a b => a ≥ b)

/-- Modelled from the spec: finalization assigns each seed its hash table
slot value.  A seed with a single occurrence stores the position directly;
a repeated seed stores a reference into the overflow table, encoded as a
number strictly greater than the number of bases in the genome (the
convention documented in the header).  The second argument tracks the next
free overflow table offset. -/
def finalizeSlots (nB : Nat) : Nat → List (Nat × List Nat) → List (Nat × Nat)
  | _, [] => []
  | st, (_, []) :: rest => finalizeSlots nB st rest
  | st, (v, [p]) :: rest => (v, p) :: finalizeSlots nB st rest
  | st, (v, ps@(_ :: _ :: _)) :: rest =>
      (v, nB + 1 + st) :: finalizeSlots nB (st + (ps.length + 1)) rest

/-- Modelled from the spec: the flat overflow table, one contiguous run per
repeated seed, each run holding its length followed by the positions sorted
in descending order. -/
def finalizeOvf : List (Nat × List Nat) → List Nat
  | [] => []
  | (_, []) :: rest => finalizeOvf rest
  | (_, [_]) :: rest => finalizeOvf rest
  | (_, ps@(_ :: _ :: _)) :: rest =>
      (ps.length :: sortDesc ps) ++ finalizeOvf rest

/-- The assembled genome index: configuration, the set of hash tables
(association lists keyed by the low bits of the seed value) and the flat
overflow table. -/
structure GenomeIndex where
  seedLen : Nat
  hashTableKeySize : Nat
  nHashTables : Nat
  nBases : Nat
  hashTables : List (List (Nat × Nat))
  overflowTable : List Nat
deriving DecidableEq

/-- Number of hash tables: the high bits of the seed value beyond the
configured key width select the table. -/
def nHashTablesFor (L ks : Nat) : Nat :=
  max 1 (2 ^ (2 * L) / 2 ^ (8 * ks))

/-- Modelled from the spec: each slot is placed in the hash table selected
by the high bits of its seed value and keyed by the low bits. -/
def distributeSlots (L ks : Nat) (slots : List (Nat × Nat)) : List (List (Nat × Nat)) :=
  (List.range (nHashTablesFor L ks)).map (fun i =>
    slots.filterMap (fun q =>
      if q.1 / 2 ^ (8 * ks) = i then some (q.1 % 2 ^ (8 * ks), q.2) else none))

/-- Build the index structure from a scan stream. -/
def buildIndexFromPairs (g : List Base) (L ks : Nat) (P : List (Nat × Nat)) : GenomeIndex :=
  { seedLen := L
    hashTableKeySize := ks
    nHashTables := nHashTablesFor L ks
    nBases := g.length
    hashTables := distributeSlots L ks (finalizeSlots g.length 0 (entriesOf P))
    overflowTable := finalizeOvf (entriesOf P) }

/-- Modelled from the spec: the whole in-memory build pipeline
(scan, group, finalize, distribute). -/
def buildIndex (g : List Base) (L ks : Nat) : GenomeIndex :=
  buildIndexFromPairs g L ks (scanPairs g L)

/-- Modelled from the spec: the build run with a given maxThreads count,
using the chunked parallel scan. -/
def buildIndexThreaded (g : List Base) (L ks t : Nat) : GenomeIndex :=
  buildIndexFromPairs g L ks (threadScan g L t)

/-- First value stored under a key in an association list. -/
def assocFind {α : Type} (k : Nat) : List (Nat × α) → Option α
  | [] => none
  | (k2, x) :: rest => if k2 = k then some x else assocFind k rest

/-- Look a seed value up in the table set: select the table by the high
bits, then search the low bits within it. -/
def tablesFind (ks : Nat) (tables : List (List (Nat × Nat))) (v : Nat) : Option Nat :=
  assocFind (v % 2 ^ (8 * ks)) (tables.getD (v / 2 ^ (8 * ks)) [])

/-- The raw slot value stored for a seed value, if any. -/
def rawLookup (idx : GenomeIndex) (v : Nat) : Option Nat :=
  tablesFind idx.hashTableKeySize idx.hashTables v

/-- Resolve an overflow reference: the run length sits at the referenced
offset, the positions follow it. -/
def overflowHits (idx : GenomeIndex) (raw : Nat) : List Nat :=
  (idx.overflowTable.drop (raw - idx.nBases)).take
    (idx.overflowTable.getD (raw - (idx.nBases + 1)) 0)

/-- The hit list for a seed value: none, the direct position, or the
overflow run, according to the slot value. -/
def lookupHits (idx : GenomeIndex) (v : Nat) : List Nat :=
  match rawLookup idx v with
  | none => []
  | some raw => if idx.nBases < raw then overflowHits idx raw else [raw]

/-- The range-restricted hit list: since overflow runs are sorted in
descending order the restriction is done by boundary search on the run
rather than a full scan. -/
def lookupHitsRange (idx : GenomeIndex) (v minLocation maxLocation : Nat) : List Nat :=
  match rawLookup idx v with
  | none => []
  | some raw =>
    if idx.nBases < raw then
      ((overflowHits idx raw).dropWhile (fun p => decide (maxLocation < p))).takeWhile
        (fun p => decide (minLocation ≤ p))
    else if minLocation ≤ raw ∧ raw ≤ maxLocation then [raw] else []

/-- lookupSeed: hit count and hit list for the seed and, independently,
for its reverse complement. -/
def lookupSeedBoth (idx : GenomeIndex) (s : List Base) :
    (Nat × List Nat) × (Nat × List Nat) :=
  (((lookupHits idx (seedValue s)).length, lookupHits idx (seedValue s)),
   ((lookupHits idx (seedValue (reverseComplement s))).length,
    lookupHits idx (seedValue (reverseComplement s))))

/-- lookupSeed restricted to a location range, for the seed and its
reverse complement. -/
def lookupSeedBothRange (idx : GenomeIndex) (s : List Base) (minLocation maxLocation : Nat) :
    (Nat × List Nat) × (Nat × List Nat) :=
  (((lookupHitsRange idx (seedValue s) minLocation maxLocation).length,
    lookupHitsRange idx (seedValue s) minLocation maxLocation),
   ((lookupHitsRange idx (seedValue (reverseComplement s)) minLocation maxLocation).length,
    lookupHitsRange idx (seedValue (reverseComplement s)) minLocation maxLocation))

/-- The lookupSeed overload that skips the reverse complement. -/
def lookupSeedFwd (idx : GenomeIndex) (s : List Base) : Nat × List Nat :=
  ((lookupHits idx (seedValue s)).length, lookupHits idx (seedValue s))

/-- The range-restricted lookupSeed overload that skips the reverse
complement. -/
def lookupSeedFwdRange (idx : GenomeIndex) (s : List Base) (minLocation maxLocation : Nat) :
    Nat × List Nat :=
  ((lookupHitsRange idx (seedValue s) minLocation maxLocation).length,
   lookupHitsRange idx (seedValue s) minLocation maxLocation)

/-- Format major version understood by this implementation (header). -/
def GenomeIndexFormatMajorVersion : Nat := 3

/-- Format minor version written by this implementation (header). -/
def GenomeIndexFormatMinorVersion : Nat := 0

/-- Largest supported seed length (header). -/
def largestSizeTable : Nat := 32

/-- Largest supported hash table key size in bytes (header). -/
def largestKeySize : Nat := 8

/-- Flatten the key/value pairs of one hash table. -/
def pairsFlat : List (Nat × Nat) → List Nat
  | [] => []
  | q :: rest => q.1 :: q.2 :: pairsFlat rest

/-- Serialized form of one hash table: its entry count then its entries. -/
def encodeTable (t : List (Nat × Nat)) : List Nat :=
  t.length :: pairsFlat t

/-- Serialized form of the whole table set. -/
def encodeTables : List (List (Nat × Nat)) → List Nat
  | [] => []
  | t :: ts => encodeTable t ++ encodeTables ts

/-- Modelled from the spec: the directory contents written by the index
store — the metadata record (format versions, seed length, key size, table
count, overflow table size, base count) followed by every hash table and
the overflow table. -/
def encodeIndex (idx : GenomeIndex) : List Nat :=
  GenomeIndexFormatMajorVersion :: GenomeIndexFormatMinorVersion ::
  idx.seedLen :: idx.hashTableKeySize :: idx.nHashTables ::
  idx.overflowTable.length :: idx.nBases ::
  (encodeTables idx.hashTables ++ idx.overflowTable)

/-- Read back a run of key/value pairs of known length. -/
def decodePairs : Nat → List Nat → Option (List (Nat × Nat) × List Nat)
  | 0, rest => some ([], rest)
  | n + 1, k :: x :: rest => (decodePairs n rest).map (fun q => ((k, x) :: q.1, q.2))
  | _ + 1, _ => none

/-- Read back one hash table. -/
def decodeTable (input : List Nat) : Option (List (Nat × Nat) × List Nat) :=
  match input with
  | [] => none
  | n :: rest => decodePairs n rest

/-- Read back a known number of hash tables. -/
def decodeTables : Nat → List Nat → Option (List (List (Nat × Nat)) × List Nat)
  | 0, rest => some ([], rest)
  | n + 1, input =>
      (decodeTable input).bind (fun q =>
        (decodeTables n q.2).map (fun r => (q.1 :: r.1, r.2)))

/-- Modelled from the spec: loadFromDirectory reads the metadata, fails the
whole load when the major format version differs from the one this
implementation understands, and otherwise reconstructs the table set and
the overflow table from the stored words. -/
def loadFromDirectory (dir : List Nat) : Option GenomeIndex :=
  match dir with
  | major :: _minor :: L :: ks :: nT :: ovfSize :: nB :: rest =>
    if major = GenomeIndexFormatMajorVersion then
      match decodeTables nT rest with
      | none => none
      | some (tables, rest2) =>
        if rest2.length = ovfSize then
          some { seedLen := L, hashTableKeySize := ks, nHashTables := nT,
                 nBases := nB, hashTables := tables, overflowTable := rest2 }
        else none
    else none
  | _ => none

/-- Modelled from the spec: BuildIndexToDirectory rejects a configuration
whose seed length or key size exceeds the supported maximum before any
indexing work, and otherwise runs the build pipeline with the requested
thread count and writes the result.  Parameters of the original that do
not affect the built structure (slack, bias, padding, overflow factor,
histogram file) are elided. -/
def BuildIndexToDirectory (g : List Base) (L ks maxThreads : Nat) : Option (List Nat) :=
  if largestSizeTable < L ∨ largestKeySize < ks then none
  else some (encodeIndex (buildIndexThreaded g L ks maxThreads))

/-! ### Generic list and arithmetic helpers -/

theorem range'_glue (s a b : Nat) :
    List.range' s a ++ List.range' (s + a) b = List.range' s (a + b) := by
  induction a generalizing s with
  | zero => simp
  | succ n ih =>
    have h1 : s + (n + 1) = (s + 1) + n := by omega
    have h2 : n + 1 + b = (n + b) + 1 := by omega
    rw [List.range'_succ, List.cons_append, h1, ih, h2, List.range'_succ]

theorem drop_append_len {α : Type} (l₁ l₂ : List α) (i : Nat) :
    (l₁ ++ l₂).drop (l₁.length + i) = l₂.drop i := by
  induction l₁ with
  | nil => simp
  | cons a t ih =>
    have h : (a :: t).length + i = (t.length + i) + 1 := by
      simp only [List.length_cons]; omega
    simp only [List.cons_append, h, List.drop_succ_cons]
    exact ih

theorem getD_append_len {α : Type} (l₁ : List α) (x : α) (l₂ : List α) (d : α) :
    (l₁ ++ x :: l₂).getD l₁.length d = x := by
  induction l₁ with
  | nil => simp
  | cons a t ih =>
    simp only [List.cons_append, List.length_cons, List.getD_cons_succ]
    exact ih

theorem getD_map_range {α : Type} (f : Nat → α) (n i : Nat) (d : α) (h : i < n) :
    ((List.range n).map f).getD i d = f i := by
  rw [List.getD_eq_getElem?_getD, List.getElem?_map, List.getElem?_range h]
  rfl

theorem sortDesc_perm (l : List Nat) : (sortDesc l).Perm l :=
  List.perm_insertionSort _ l

theorem sortDesc_length (l : List Nat) : (sortDesc l).length = l.length :=
  List.length_insertionSort _ l

theorem sortDesc_sorted (l : List Nat) : List.Sorted (fun a b => a ≥ b) (sortDesc l) :=
  List.sorted_insertionSort _ l

theorem sortDesc_nil : sortDesc [] = [] := rfl

theorem sortDesc_singleton (p : Nat) : sortDesc [p] = [p] := rfl

theorem sortDesc_sorted_gt (l : List Nat) (h : l.Nodup) :
    List.Sorted (fun a b => a > b) (sortDesc l) := by
  have hs := sortDesc_sorted l
  have hn : (sortDesc l).Nodup := (sortDesc_perm l).symm.nodup h
  exact (hs.and hn).imp (fun hab => lt_of_le_of_ne hab.1 (Ne.symm hab.2))

/-! ### Association list lookup -/

theorem assocFind_cons {α : Type} (k k2 : Nat) (x : α) (rest : List (Nat × α)) :
    assocFind k ((k2, x) :: rest) = if k2 = k then some x else assocFind k rest := rfl

theorem assocFind_eq_none {α : Type} (v : Nat) :
    ∀ S : List (Nat × α), (∀ q ∈ S, q.1 ≠ v) → assocFind v S = none := by
  intro S
  induction S with
  | nil => intro _; rfl
  | cons q rest ih =>
    intro h
    obtain ⟨k, x⟩ := q
    have hk : k ≠ v := h (k, x) (List.mem_cons_self _ _)
    rw [assocFind_cons, if_neg hk]
    exact ih (fun q hq => h q (List.mem_cons_of_mem _ hq))

theorem assocFind_filterMap (kb v : Nat) :
    ∀ S : List (Nat × Nat),
      assocFind (v % kb)
        (S.filterMap (fun q =>
          if q.1 / kb = v / kb then some (q.1 % kb, q.2) else none))
      = assocFind v S := by
  intro S
  induction S with
  | nil => rfl
  | cons q rest ih =>
    obtain ⟨w, r⟩ := q
    by_cases hd : w / kb = v / kb
    · by_cases hw : w = v
      · subst hw
        simp [List.filterMap_cons, assocFind_cons]
      · have hm : w % kb ≠ v % kb := by
          intro hmod
          apply hw
          have h1 := Nat.div_add_mod w kb
          rw [hd, hmod] at h1
          exact (((Nat.div_add_mod v kb).symm.trans h1)).symm
        simp [List.filterMap_cons, hd, assocFind_cons, hm, hw, ih]
    · have hw : w ≠ v := fun h => hd (by rw [h])
      simp [List.filterMap_cons, hd, assocFind_cons, hw, ih]

theorem pow_four_eq (L : Nat) : (4 : Nat) ^ L = 2 ^ (2 * L) := by
  rw [show (4 : Nat) = 2 ^ 2 by norm_num, ← pow_mul]

theorem tableIdx_lt (L ks v : Nat) (hv : v < 2 ^ (2 * L)) :
    v / 2 ^ (8 * ks) < nHashTablesFor L ks := by
  by_cases hk : 8 * ks ≤ 2 * L
  · have hdiv : (2 : Nat) ^ (2 * L) / 2 ^ (8 * ks) = 2 ^ (2 * L - 8 * ks) :=
      Nat.pow_div hk (by norm_num)
    have h1 : v < 2 ^ (2 * L - 8 * ks) * 2 ^ (8 * ks) := by
      rw [← pow_add, Nat.sub_add_cancel hk]
      exact hv
    have h2 : v / 2 ^ (8 * ks) < 2 ^ (2 * L - 8 * ks) :=
      (Nat.div_lt_iff_lt_mul (pow_pos (by norm_num) _)).mpr h1
    calc v / 2 ^ (8 * ks) < 2 ^ (2 * L - 8 * ks) := h2
      _ ≤ nHashTablesFor L ks := by rw [nHashTablesFor, ← hdiv]; exact le_max_right _ _
  · have h1 : v < 2 ^ (8 * ks) :=
      lt_of_lt_of_le hv (Nat.pow_le_pow_right (by norm_num) (by omega))
    rw [Nat.div_eq_of_lt h1]
    calc 0 < 1 := by norm_num
      _ ≤ nHashTablesFor L ks := le_max_left _ _

theorem tablesFind_distribute (L ks : Nat) (S : List (Nat × Nat))
    (hS : ∀ q ∈ S, q.1 < 2 ^ (2 * L)) (v : Nat) :
    tablesFind ks (distributeSlots L ks S) v = assocFind v S := by
  by_cases hi : v / 2 ^ (8 * ks) < nHashTablesFor L ks
  · have hget : (distributeSlots L ks S).getD (v / 2 ^ (8 * ks)) []
        = S.filterMap (fun q =>
            if q.1 / 2 ^ (8 * ks) = v / 2 ^ (8 * ks) then
              some (q.1 % 2 ^ (8 * ks), q.2) else none) := by
      rw [distributeSlots]
      exact getD_map_range _ _ _ _ hi
    rw [tablesFind, hget]
    exact assocFind_filterMap _ v S
  · have hlen : (distributeSlots L ks S).length ≤ v / 2 ^ (8 * ks) := by
      rw [distributeSlots, List.length_map, List.length_range]
      omega
    have hget : (distributeSlots L ks S).getD (v / 2 ^ (8 * ks)) [] = [] :=
      List.getD_eq_default _ _ hlen
    rw [tablesFind, hget]
    have hne : ∀ q ∈ S, q.1 ≠ v := by
      intro q hq he
      exact hi (he ▸ tableIdx_lt L ks q.1 (hS q hq))
    rw [assocFind_eq_none v S hne]
    rfl

/-! ### Behaviour of the overflow finalization -/

theorem finalizeSlots_keys (nB : Nat) (Q : Nat → Prop) :
    ∀ (entries : List (Nat × List Nat)) (st : Nat),
      (∀ e ∈ entries, Q e.1) → ∀ q ∈ finalizeSlots nB st entries, Q q.1 := by
  intro entries
  induction entries with
  | nil => intro st _ q hq; simp [finalizeSlots] at hq
  | cons e rest ih =>
    intro st h q hq
    obtain ⟨w, ps⟩ := e
    have hw : Q w := h (w, ps) (List.mem_cons_self _ _)
    have hrest : ∀ e ∈ rest, Q e.1 := fun e he => h e (List.mem_cons_of_mem _ he)
    cases ps with
    | nil =>
      simp only [finalizeSlots] at hq
      exact ih st hrest q hq
    | cons p1 ps1 =>
      cases ps1 with
      | nil =>
        simp only [finalizeSlots] at hq
        rcases List.mem_cons.mp hq with h1 | h2
        · rw [h1]; exact hw
        · exact ih st hrest q h2
      | cons p2 tl =>
        simp only [finalizeSlots] at hq
        rcases List.mem_cons.mp hq with h1 | h2
        · rw [h1]; exact hw
        · exact ih _ hrest q h2

theorem finalizeSlots_none (nB v : Nat) :
    ∀ (entries : List (Nat × List Nat)) (st : Nat),
      (∀ e ∈ entries, e.1 ≠ v) → assocFind v (finalizeSlots nB st entries) = none := by
  intro entries
  induction entries with
  | nil => intro st _; rfl
  | cons e rest ih =>
    intro st h
    obtain ⟨w, ps⟩ := e
    have hw : w ≠ v := h (w, ps) (List.mem_cons_self _ _)
    have hrest : ∀ e ∈ rest, e.1 ≠ v := fun e he => h e (List.mem_cons_of_mem _ he)
    cases ps with
    | nil =>
      simp only [finalizeSlots]
      exact ih st hrest
    | cons p1 ps1 =>
      cases ps1 with
      | nil =>
        simp only [finalizeSlots]
        rw [assocFind_cons, if_neg hw]
        exact ih st hrest
      | cons p2 tl =>
        simp only [finalizeSlots]
        rw [assocFind_cons, if_neg hw]
        exact ih _ hrest

theorem finalizeSlots_single (nB v p : Nat) :
    ∀ (entries : List (Nat × List Nat)) (st : Nat),
      assocFind v entries = some [p] →
      assocFind v (finalizeSlots nB st entries) = some p := by
  intro entries
  induction entries with
  | nil => intro st h; simp [assocFind] at h
  | cons e rest ih =>
    intro st h
    obtain ⟨w, ps⟩ := e
    by_cases hw : w = v
    · subst hw
      rw [assocFind_cons, if_pos rfl] at h
      have hps : ps = [p] := Option.some.inj h
      subst hps
      simp only [finalizeSlots]
      rw [assocFind_cons, if_pos rfl]
    · rw [assocFind_cons, if_neg hw] at h
      cases ps with
      | nil =>
        simp only [finalizeSlots]
        exact ih st h
      | cons p1 ps1 =>
        cases ps1 with
        | nil =>
          simp only [finalizeSlots]
          rw [assocFind_cons, if_neg hw]
          exact ih st h
        | cons p2 tl =>
          simp only [finalizeSlots]
          rw [assocFind_cons, if_neg hw]
          exact ih _ h

theorem finalizeSlots_multi (nB v : Nat) :
    ∀ (entries : List (Nat × List Nat)) (pre : List Nat) (ps : List Nat),
      assocFind v entries = some ps → 2 ≤ ps.length →
      ∃ raw, assocFind v (finalizeSlots nB pre.length entries) = some raw ∧ nB < raw ∧
        (pre ++ finalizeOvf entries).getD (raw - (nB + 1)) 0 = ps.length ∧
        ((pre ++ finalizeOvf entries).drop (raw - nB)).take ps.length = sortDesc ps := by
  intro entries
  induction entries with
  | nil => intro pre ps h _; simp [assocFind] at h
  | cons e rest ih =>
    intro pre ps h hlen
    obtain ⟨w, qs⟩ := e
    by_cases hw : w = v
    · subst hw
      rw [assocFind_cons, if_pos rfl] at h
      obtain rfl : qs = ps := Option.some.inj h
      cases qs with
      | nil => simp at hlen
      | cons p1 ps1 =>
        cases ps1 with
        | nil => simp at hlen
        | cons p2 tl =>
          refine ⟨nB + 1 + pre.length, ?_, by omega, ?_, ?_⟩
          · simp only [finalizeSlots]
            rw [assocFind_cons, if_pos rfl]
          · have hsub : nB + 1 + pre.length - (nB + 1) = pre.length := by omega
            rw [hsub]
            simp only [finalizeOvf]
            rw [List.cons_append]
            exact getD_append_len _ _ _ _
          · have hsub2 : nB + 1 + pre.length - nB = pre.length + 1 := by omega
            rw [hsub2]
            simp only [finalizeOvf]
            rw [List.cons_append]
            rw [drop_append_len pre ((p1 :: p2 :: tl).length ::
              (sortDesc (p1 :: p2 :: tl) ++ finalizeOvf rest)) 1]
            rw [List.drop_succ_cons, List.drop_zero]
            rw [show (p1 :: p2 :: tl).length = (sortDesc (p1 :: p2 :: tl)).length from
              (sortDesc_length _).symm]
            exact List.take_left _ _
    · rw [assocFind_cons, if_neg hw] at h
      cases qs with
      | nil =>
        simp only [finalizeSlots, finalizeOvf]
        exact ih pre ps h hlen
      | cons q1 qs1 =>
        cases qs1 with
        | nil =>
          simp only [finalizeSlots, finalizeOvf]
          rw [assocFind_cons, if_neg hw]
          exact ih pre ps h hlen
        | cons q2 qtl =>
          simp only [finalizeSlots, finalizeOvf]
          rw [assocFind_cons, if_neg hw]
          have hpre : (pre ++ (q1 :: q2 :: qtl).length :: sortDesc (q1 :: q2 :: qtl)).length
              = pre.length + ((q1 :: q2 :: qtl).length + 1) := by
            simp [sortDesc_length]
          have hrec := ih (pre ++ (q1 :: q2 :: qtl).length :: sortDesc (q1 :: q2 :: qtl)) ps h hlen
          rw [hpre] at hrec
          simpa [List.append_assoc] using hrec

/-! ### Grouping the scan stream by seed value -/

theorem positionsOf_cons (v w p : Nat) (rest : List (Nat × Nat)) :
    positionsOf v ((w, p) :: rest)
      = if w = v then p :: positionsOf v rest else positionsOf v rest := rfl

theorem positionsOf_sub (v : Nat) :
    ∀ (P : List (Nat × Nat)) (p : Nat), p ∈ positionsOf v P → (v, p) ∈ P := by
  intro P
  induction P with
  | nil => intro p h; simp [positionsOf] at h
  | cons q rest ih =>
    obtain ⟨w, x⟩ := q
    intro p h
    by_cases hw : w = v
    · subst hw
      rw [positionsOf_cons, if_pos rfl] at h
      rcases List.mem_cons.mp h with h1 | h2
      · rw [h1]; exact List.mem_cons_self _ _
      · exact List.mem_cons_of_mem _ (ih p h2)
    · rw [positionsOf_cons, if_neg hw] at h
      exact List.mem_cons_of_mem _ (ih p h)

theorem positionsOf_eq_nil (v : Nat) :
    ∀ P : List (Nat × Nat), v ∉ P.map Prod.fst → positionsOf v P = [] := by
  intro P
  induction P with
  | nil => intro _; rfl
  | cons q rest ih =>
    obtain ⟨w, x⟩ := q
    intro h
    have hw : w ≠ v := by
      intro he
      exact h (by rw [he]; exact List.mem_cons_self _ _)
    rw [positionsOf_cons, if_neg hw]
    exact ih (fun hm => h (List.mem_cons_of_mem _ hm))

theorem positionsOf_ne_nil (v : Nat) :
    ∀ P : List (Nat × Nat), v ∈ P.map Prod.fst → positionsOf v P ≠ [] := by
  intro P
  induction P with
  | nil => intro h; simp at h
  | cons q rest ih =>
    obtain ⟨w, x⟩ := q
    intro h
    by_cases hw : w = v
    · subst hw
      rw [positionsOf_cons, if_pos rfl]
      exact List.cons_ne_nil _ _
    · rw [positionsOf_cons, if_neg hw]
      apply ih
      rcases List.mem_map.mp h with ⟨q2, hq2, he⟩
      rcases List.mem_cons.mp hq2 with h1 | h2
      · exact absurd (by rw [h1] at he; exact he) hw
      · exact List.mem_map.mpr ⟨q2, h2, he⟩

theorem assocFind_map_self {α : Type} (v : Nat) (f : Nat → α) :
    ∀ l : List Nat,
      assocFind v (l.map (fun w => (w, f w)))
        = if v ∈ l then some (f v) else none := by
  intro l
  induction l with
  | nil => simp [assocFind]
  | cons w rest ih =>
    by_cases hw : w = v
    · subst hw
      simp [List.map_cons, assocFind_cons]
    · simp [List.map_cons, assocFind_cons, hw, Ne.symm hw, ih, List.mem_cons]

theorem entriesOf_key_mem (P : List (Nat × Nat)) :
    ∀ e ∈ entriesOf P, e.1 ∈ P.map Prod.fst := by
  intro e he
  rw [entriesOf] at he
  obtain ⟨w, hw, rfl⟩ := List.mem_map.mp he
  simpa using List.mem_dedup.mp hw

/-! ### The slot and overflow structure of a built index -/

theorem fromPairs_char (g : List Base) (L ks : Nat) (P : List (Nat × Nat))
    (hv : ∀ q ∈ P, q.1 < 2 ^ (2 * L)) (hp : ∀ q ∈ P, q.2 < g.length) (v : Nat) :
    (positionsOf v P = [] ∧ rawLookup (buildIndexFromPairs g L ks P) v = none)
    ∨ (∃ p, positionsOf v P = [p]
         ∧ rawLookup (buildIndexFromPairs g L ks P) v = some p ∧ p < g.length)
    ∨ (∃ raw, 2 ≤ (positionsOf v P).length
         ∧ rawLookup (buildIndexFromPairs g L ks P) v = some raw
         ∧ g.length < raw
         ∧ overflowHits (buildIndexFromPairs g L ks P) raw
             = sortDesc (positionsOf v P)) := by
  have hekeys : ∀ e ∈ entriesOf P, e.1 < 2 ^ (2 * L) := by
    intro e he
    rcases List.mem_map.mp (entriesOf_key_mem P e he) with ⟨q, hq, he2⟩
    exact he2 ▸ hv q hq
  have hskeys : ∀ q ∈ finalizeSlots g.length 0 (entriesOf P), q.1 < 2 ^ (2 * L) := by
    have := finalizeSlots_keys g.length (fun w => w < 2 ^ (2 * L)) (entriesOf P) 0 hekeys
    exact this
  have hraw : rawLookup (buildIndexFromPairs g L ks P) v
      = assocFind v (finalizeSlots g.length 0 (entriesOf P)) := by
    simp only [rawLookup, buildIndexFromPairs]
    exact tablesFind_distribute L ks _ hskeys v
  by_cases hmem : v ∈ P.map Prod.fst
  · have hassoc : assocFind v (entriesOf P) = some (positionsOf v P) := by
      rw [entriesOf, assocFind_map_self, if_pos (List.mem_dedup.mpr hmem)]
    have hbound : ∀ p ∈ positionsOf v P, p < g.length := fun p hp2 =>
      hp (v, p) (positionsOf_sub v P p hp2)
    cases hps : positionsOf v P with
    | nil => exact absurd hps (positionsOf_ne_nil v P hmem)
    | cons p1 ps1 =>
      cases ps1 with
      | nil =>
        refine Or.inr (Or.inl ⟨p1, rfl, ?_, ?_⟩)
        · rw [hraw]
          exact finalizeSlots_single g.length v p1 (entriesOf P) 0 (hps ▸ hassoc)
        · exact hbound p1 (by rw [hps]; exact List.mem_cons_self _ _)
      | cons p2 tl =>
        rw [← hps]
        have hlen2 : 2 ≤ (positionsOf v P).length := by
          rw [hps]; simp
        obtain ⟨raw, hfind, hgt, hgetD, htake⟩ :=
          finalizeSlots_multi g.length v (entriesOf P) [] (positionsOf v P) hassoc hlen2
        simp only [List.length_nil, List.nil_append] at hfind hgetD htake
        refine Or.inr (Or.inr ⟨raw, hlen2, ?_, hgt, ?_⟩)
        · rw [hraw]; exact hfind
        · show ((finalizeOvf (entriesOf P)).drop (raw - g.length)).take
              ((finalizeOvf (entriesOf P)).getD (raw - (g.length + 1)) 0)
            = sortDesc (positionsOf v P)
          rw [hgetD]
          exact htake
  · refine Or.inl ⟨positionsOf_eq_nil v P hmem, ?_⟩
    rw [hraw]
    apply finalizeSlots_none
    intro e he heq
    exact hmem (heq ▸ entriesOf_key_mem P e he)

/-! ### Seed windows and seed values -/

theorem seedAt_some (g : List Base) (L p : Nat) (w : List Base)
    (h : seedAt g L p = some w) :
    w.length = L ∧ w.all Base.isResolved = true := by
  rw [seedAt] at h
  split at h
  · rename_i hc
    obtain rfl : (g.drop p).take L = w := Option.some.inj h
    exact hc
  · exact absurd h (by simp)

theorem baseCode_le (b : Base) : baseCode b ≤ 3 := by
  cases b <;> simp [baseCode]

theorem seedValue_lt (s : List Base) : seedValue s < 4 ^ s.length := by
  induction s with
  | nil => simp [seedValue]
  | cons b rest ih =>
    rw [seedValue, List.length_cons]
    calc baseCode b * 4 ^ rest.length + seedValue rest
        < baseCode b * 4 ^ rest.length + 4 ^ rest.length := by omega
      _ ≤ 3 * 4 ^ rest.length + 4 ^ rest.length := by
          have := baseCode_le b
          have h4 : (0:Nat) < 4 ^ rest.length := pow_pos (by norm_num) _
          exact Nat.add_le_add_right (Nat.mul_le_mul_right _ this) _
      _ = 4 ^ (rest.length + 1) := by ring

theorem baseCode_inj (b c : Base) (hb : b.isResolved = true) (hc : c.isResolved = true)
    (h : baseCode b = baseCode c) : b = c := by
  cases b <;> cases c <;> simp_all [baseCode, Base.isResolved]

theorem seedValue_inj :
    ∀ (s t : List Base), s.length = t.length →
      s.all Base.isResolved = true → t.all Base.isResolved = true →
      seedValue s = seedValue t → s = t := by
  intro s
  induction s with
  | nil =>
    intro t hlen _ _ _
    cases t with
    | nil => rfl
    | cons c t2 => simp at hlen
  | cons b s2 ih =>
    intro t hlen hs ht hv
    cases t with
    | nil => simp at hlen
    | cons c t2 =>
      have hlen2 : s2.length = t2.length := by
        simpa using hlen
      rw [seedValue, seedValue, hlen2] at hv
      have hlt1 : seedValue s2 < 4 ^ t2.length := hlen2 ▸ seedValue_lt s2
      have hlt2 : seedValue t2 < 4 ^ t2.length := seedValue_lt t2
      have h4 : (0:Nat) < 4 ^ t2.length := pow_pos (by norm_num) _
      have hdiv : baseCode b = baseCode c := by
        have h1 : (baseCode b * 4 ^ t2.length + seedValue s2) / 4 ^ t2.length
            = baseCode b := by
          rw [Nat.mul_comm (baseCode b), Nat.mul_add_div h4, Nat.div_eq_of_lt hlt1, Nat.add_zero]
        have h2 : (baseCode c * 4 ^ t2.length + seedValue t2) / 4 ^ t2.length
            = baseCode c := by
          rw [Nat.mul_comm (baseCode c), Nat.mul_add_div h4, Nat.div_eq_of_lt hlt2, Nat.add_zero]
        rw [← h1, ← h2, hv]
      have hmod : seedValue s2 = seedValue t2 := by
        have h1 : (baseCode b * 4 ^ t2.length + seedValue s2) % 4 ^ t2.length
            = seedValue s2 := by
          rw [Nat.mul_comm (baseCode b), Nat.mul_add_mod, Nat.mod_eq_of_lt hlt1]
        have h2 : (baseCode c * 4 ^ t2.length + seedValue t2) % 4 ^ t2.length
            = seedValue t2 := by
          rw [Nat.mul_comm (baseCode c), Nat.mul_add_mod, Nat.mod_eq_of_lt hlt2]
        rw [← h1, ← h2, hv]
      have hsb : b.isResolved = true ∧ s2.all Base.isResolved = true := by
        simpa using hs
      have htc : c.isResolved = true ∧ t2.all Base.isResolved = true := by
        simpa using ht
      rw [baseCode_inj b c hsb.1 htc.1 hdiv, ih t2 hlen2 hsb.2 htc.2 hmod]

/-! ### The scan stream and the linear-scan occurrence lists -/

theorem positionsOf_scan (g : List Base) (L v : Nat) :
    ∀ l : List Nat,
      positionsOf v (l.filterMap (fun p => (seedAt g L p).map (fun w => (seedValue w, p))))
      = l.filter (fun p => decide ((seedAt g L p).map seedValue = some v)) := by
  intro l
  induction l with
  | nil => rfl
  | cons p rest ih =>
    rw [List.filterMap_cons, List.filter_cons]
    cases hs : seedAt g L p with
    | none => simp [hs, ih]
    | some w =>
      by_cases hv : seedValue w = v
      · simp [hs, positionsOf_cons, hv, ih]
      · simp [hs, positionsOf_cons, hv, ih]

theorem positionsOf_scanPairs (g : List Base) (L v : Nat) :
    positionsOf v (scanPairs g L) = occurrencesV g L v :=
  positionsOf_scan g L v (List.range g.length)

theorem scanPairs_val_lt (g : List Base) (L : Nat) :
    ∀ q ∈ scanPairs g L, q.1 < 2 ^ (2 * L) := by
  intro q hq
  rw [scanPairs] at hq
  obtain ⟨p, _, hq2⟩ := List.mem_filterMap.mp hq
  cases hs : seedAt g L p with
  | none => rw [hs] at hq2; simp at hq2
  | some w =>
    rw [hs] at hq2
    obtain rfl : (seedValue w, p) = q := Option.some.inj hq2
    have hw := seedAt_some g L p w hs
    have := seedValue_lt w
    rw [hw.1, pow_four_eq] at this
    exact this

theorem scanPairs_pos_lt (g : List Base) (L : Nat) :
    ∀ q ∈ scanPairs g L, q.2 < g.length := by
  intro q hq
  rw [scanPairs] at hq
  obtain ⟨p, hp, hq2⟩ := List.mem_filterMap.mp hq
  cases hs : seedAt g L p with
  | none => rw [hs] at hq2; simp at hq2
  | some w =>
    rw [hs] at hq2
    obtain rfl : (seedValue w, p) = q := Option.some.inj hq2
    exact List.mem_range.mp hp

/-- The central characterization: looking a seed value up in the built
index resolves to nothing, to the unique occurrence position, or to the
descending sort of the occurrence list held in the overflow table. -/
theorem build_char (g : List Base) (L ks v : Nat) :
    (occurrencesV g L v = [] ∧ rawLookup (buildIndex g L ks) v = none)
    ∨ (∃ p, occurrencesV g L v = [p]
         ∧ rawLookup (buildIndex g L ks) v = some p ∧ p < g.length)
    ∨ (∃ raw, 2 ≤ (occurrencesV g L v).length
         ∧ rawLookup (buildIndex g L ks) v = some raw
         ∧ g.length < raw
         ∧ overflowHits (buildIndex g L ks) raw = sortDesc (occurrencesV g L v)) := by
  have h := fromPairs_char g L ks (scanPairs g L)
    (scanPairs_val_lt g L) (scanPairs_pos_lt g L) v
  rwa [positionsOf_scanPairs] at h

theorem lookupHits_buildIndex (g : List Base) (L ks v : Nat) :
    lookupHits (buildIndex g L ks) v = sortDesc (occurrencesV g L v) := by
  have hnb : (buildIndex g L ks).nBases = g.length := rfl
  rcases build_char g L ks v with ⟨h1, h2⟩ | ⟨p, h1, h2, h3⟩ | ⟨raw, h1, h2, h3, h4⟩
  · simp only [lookupHits, h2]
    rw [h1, sortDesc_nil]
  · simp only [lookupHits, h2]
    rw [if_neg (by rw [hnb]; omega), h1, sortDesc_singleton]
  · simp only [lookupHits, h2]
    rw [if_pos (by rw [hnb]; exact h3)]
    exact h4

/-! ### Boundary search on a descending run equals range filtering -/

theorem dropWhile_gt_eq_filter (maxLocation : Nat) :
    ∀ l : List Nat, List.Sorted (fun a b => a ≥ b) l →
      l.dropWhile (fun p => decide (maxLocation < p))
        = l.filter (fun p => decide (p ≤ maxLocation)) := by
  intro l
  induction l with
  | nil => intro _; rfl
  | cons a rest ih =>
    intro hs
    have hrest := hs.of_cons
    have hall : ∀ b ∈ rest, a ≥ b := fun b hb => List.rel_of_sorted_cons hs b hb
    by_cases ha : maxLocation < a
    · rw [List.dropWhile_cons, if_pos (by simpa using ha), List.filter_cons,
        if_neg (by simpa using ha)]
      exact ih hrest
    · rw [List.dropWhile_cons, if_neg (by simpa using ha), List.filter_cons,
        if_pos (by simp; omega)]
      have : rest.filter (fun p => decide (p ≤ maxLocation)) = rest := by
        rw [List.filter_eq_self]
        intro b hb
        have := hall b hb
        simp
        omega
      rw [this]

theorem takeWhile_ge_eq_filter (minLocation : Nat) :
    ∀ l : List Nat, List.Sorted (fun a b => a ≥ b) l →
      l.takeWhile (fun p => decide (minLocation ≤ p))
        = l.filter (fun p => decide (minLocation ≤ p)) := by
  intro l
  induction l with
  | nil => intro _; rfl
  | cons a rest ih =>
    intro hs
    have hrest := hs.of_cons
    have hall : ∀ b ∈ rest, a ≥ b := fun b hb => List.rel_of_sorted_cons hs b hb
    by_cases ha : minLocation ≤ a
    · rw [List.takeWhile_cons, if_pos (by simpa using ha), List.filter_cons,
        if_pos (by simpa using ha), ih hrest]
    · rw [List.takeWhile_cons, if_neg (by simpa using ha), List.filter_cons,
        if_neg (by simpa using ha)]
      have : rest.filter (fun p => decide (minLocation ≤ p)) = [] := by
        rw [List.filter_eq_nil_iff]
        intro b hb
        have := hall b hb
        simp
        omega
      rw [this]

theorem boundary_eq_filter (minLocation maxLocation : Nat) (l : List Nat)
    (hs : List.Sorted (fun a b => a ≥ b) l) :
    (l.dropWhile (fun p => decide (maxLocation < p))).takeWhile
        (fun p => decide (minLocation ≤ p))
      = l.filter (fun p => decide (minLocation ≤ p ∧ p ≤ maxLocation)) := by
  rw [dropWhile_gt_eq_filter maxLocation l hs]
  rw [takeWhile_ge_eq_filter minLocation _ (hs.filter _)]
  rw [List.filter_filter]
  apply List.filter_congr
  intro a _
  by_cases h1 : minLocation ≤ a <;> by_cases h2 : a ≤ maxLocation <;> simp [h1, h2]

theorem lookupHitsRange_filter (g : List Base) (L ks v minLocation maxLocation : Nat) :
    lookupHitsRange (buildIndex g L ks) v minLocation maxLocation
      = (lookupHits (buildIndex g L ks) v).filter
          (fun p => decide (minLocation ≤ p ∧ p ≤ maxLocation)) := by
  have hnb : (buildIndex g L ks).nBases = g.length := rfl
  rcases build_char g L ks v with ⟨h1, h2⟩ | ⟨p, h1, h2, h3⟩ | ⟨raw, h1, h2, h3, h4⟩
  · simp only [lookupHitsRange, lookupHits, h2]
    rfl
  · have hnp : ¬ ((buildIndex g L ks).nBases < p) := by rw [hnb]; omega
    simp only [lookupHitsRange, lookupHits, h2, if_neg hnp]
    by_cases hin : minLocation ≤ p ∧ p ≤ maxLocation
    · rw [if_pos hin, List.filter_cons, if_pos (by simpa using hin)]
      rfl
    · rw [if_neg hin, List.filter_cons, if_neg (by simpa using hin)]
      rfl
  · have hyp : (buildIndex g L ks).nBases < raw := by rw [hnb]; exact h3
    simp only [lookupHitsRange, lookupHits, h2, if_pos hyp]
    exact boundary_eq_filter _ _ _ (by rw [h4]; exact sortDesc_sorted _)

/-! ### Serialization round trip -/

theorem decodePairs_flat :
    ∀ (t : List (Nat × Nat)) (rest : List Nat),
      decodePairs t.length (pairsFlat t ++ rest) = some (t, rest) := by
  intro t
  induction t with
  | nil => intro rest; rfl
  | cons q t2 ih =>
    intro rest
    obtain ⟨k, x⟩ := q
    simp only [pairsFlat, List.length_cons, List.cons_append]
    rw [decodePairs, ih]
    rfl

theorem decodeTables_encode :
    ∀ (ts : List (List (Nat × Nat))) (rest : List Nat),
      decodeTables ts.length (encodeTables ts ++ rest) = some (ts, rest) := by
  intro ts
  induction ts with
  | nil => intro rest; rfl
  | cons t ts2 ih =>
    intro rest
    simp only [encodeTables, encodeTable, List.length_cons, List.cons_append,
      List.append_assoc]
    rw [decodeTables, decodeTable, decodePairs_flat]
    simp [ih]

theorem load_encode (idx : GenomeIndex) (h : idx.hashTables.length = idx.nHashTables) :
    loadFromDirectory (encodeIndex idx) = some idx := by
  rw [encodeIndex, loadFromDirectory, if_pos rfl, ← h, decodeTables_encode]
  simp [h]

theorem buildIndexFromPairs_tables_len (g : List Base) (L ks : Nat) (P : List (Nat × Nat)) :
    (buildIndexFromPairs g L ks P).hashTables.length
      = (buildIndexFromPairs g L ks P).nHashTables := by
  simp [buildIndexFromPairs, distributeSlots]

/-! ### Chunked parallel scan equals the sequential scan -/

theorem chunk_ranges_flatten (n t : Nat) (ht : 1 ≤ t) :
    ((List.range t).map (fun i =>
      List.range' (n * i / t) (n * (i + 1) / t - n * i / t))).flatten
    = List.range n := by
  have aux : ∀ m, m ≤ t →
      ((List.range m).map (fun i =>
        List.range' (n * i / t) (n * (i + 1) / t - n * i / t))).flatten
      = List.range' 0 (n * m / t) := by
    intro m
    induction m with
    | zero => intro _; simp
    | succ k ih =>
      intro hk
      rw [List.range_succ, List.map_append, List.flatten_append, ih (by omega)]
      have hle : n * k / t ≤ n * (k + 1) / t :=
        Nat.div_le_div_right (Nat.mul_le_mul_left n (by omega))
      simp only [List.map_cons, List.map_nil, List.flatten_cons, List.flatten_nil,
        List.append_nil]
      have := range'_glue 0 (n * k / t) (n * (k + 1) / t - n * k / t)
      rw [Nat.zero_add] at this
      rw [this, Nat.add_sub_cancel' hle]
    
  have h1 := aux t (le_refl t)
  rw [Nat.mul_div_cancel n ht] at h1
  rw [h1, List.range_eq_range']

theorem flatten_map_filterMap {α β : Type} (F : α → Option β) :
    ∀ Ls : List (List α),
      (Ls.map (fun l => l.filterMap F)).flatten = Ls.flatten.filterMap F := by
  intro Ls
  induction Ls with
  | nil => rfl
  | cons l Ls2 ih =>
    simp only [List.map_cons, List.flatten_cons, List.filterMap_append, ih]

theorem threadScan_eq (g : List Base) (L t : Nat) (ht : 1 ≤ t) :
    threadScan g L t = scanPairs g L := by
  rw [threadScan, scanPairs]
  have h1 : (List.range t).map (fun i =>
      chunkScan g L (g.length * i / t) (g.length * (i + 1) / t - g.length * i / t))
      = (List.range t).map (fun i =>
          (List.range' (g.length * i / t) (g.length * (i + 1) / t - g.length * i / t)).filterMap
            (fun p => (seedAt g L p).map (fun w => (seedValue w, p)))) := by
    apply List.map_congr_left
    intro i _
    rfl
  rw [h1]
  have h2 : (List.range t).map (fun i =>
      (List.range' (g.length * i / t) (g.length * (i + 1) / t - g.length * i / t)).filterMap
        (fun p => (seedAt g L p).map (fun w => (seedValue w, p))))
      = ((List.range t).map (fun i =>
          List.range' (g.length * i / t) (g.length * (i + 1) / t - g.length * i / t))).map
            (fun l => l.filterMap (fun p => (seedAt g L p).map (fun w => (seedValue w, p)))) := by
    rw [List.map_map]
    rfl
  rw [h2, flatten_map_filterMap, chunk_ranges_flatten g.length t ht]

theorem buildIndexThreaded_one (g : List Base) (L ks : Nat) :
    buildIndexThreaded g L ks 1 = buildIndex g L ks := by
  rw [buildIndexThreaded, buildIndex, threadScan_eq g L 1 (le_refl 1)]

/-! ### Linking seed-level and value-level scans -/

theorem occurrencesV_seed (g : List Base) (L : Nat) (s : List Base)
    (hlen : s.length = L) (hres : s.all Base.isResolved = true) :
    occurrencesV g L (seedValue s) = occurrencesS g L s := by
  rw [occurrencesV, occurrencesS]
  apply List.filter_congr
  intro p _
  rw [decide_eq_decide]
  cases hw : seedAt g L p with
  | none => simp
  | some w =>
    have hw2 := seedAt_some g L p w hw
    constructor
    · intro h
      have hv : seedValue w = seedValue s := by simpa using h
      have he : w = s := seedValue_inj w s (by rw [hw2.1, hlen]) hw2.2 hres hv
      rw [he]
    · intro h
      have he : w = s := by simpa using h
      simp [he]

/-! ### Example inputs used by the concrete witnesses -/

/-- The example genome of the spec, ACGTACGTAC. -/
def exGenome : List Base :=
  [.A, .C, .G, .T, .A, .C, .G, .T, .A, .C]

/-- The example seed ACGT, occurring at positions 0 and 4. -/
def exSeed : List Base := [.A, .C, .G, .T]

/-- A two-base genome with a unique seed. -/
def exG2 : List Base := [.A, .C]

/-! ### The claims -/

/-- C1: for every genome, every valid seed length and every seed, the hit
list returned by lookupSeed on the built index is a permutation of the
occurrence list of the straightforward linear scan, has no duplicates, and
its reported count is the number of scan occurrences. -/
theorem lookup_matches_linear_scan (g : List Base) (L ks : Nat) (s : List Base)
    (hL1 : 1 ≤ L) (hL2 : L ≤ largestSizeTable) (hlen : s.length = L)
    (hres : s.all Base.isResolved = true) :
    ((lookupSeedBoth (buildIndex g L ks) s).1.2).Perm (occurrencesS g L s)
    ∧ ((lookupSeedBoth (buildIndex g L ks) s).1.2).Nodup
    ∧ (lookupSeedBoth (buildIndex g L ks) s).1.1 = (occurrencesS g L s).length := by
  have h1 : (lookupSeedBoth (buildIndex g L ks) s).1.2
      = sortDesc (occurrencesS g L s) := by
    show lookupHits (buildIndex g L ks) (seedValue s) = _
    rw [lookupHits_buildIndex, occurrencesV_seed g L s hlen hres]
  have hperm : (sortDesc (occurrencesS g L s)).Perm (occurrencesS g L s) :=
    sortDesc_perm _
  have hnodup : (occurrencesS g L s).Nodup :=
    List.Nodup.filter _ (List.nodup_range _)
  refine ⟨h1 ▸ hperm, h1 ▸ hperm.symm.nodup hnodup, ?_⟩
  show (lookupSeedBoth (buildIndex g L ks) s).1.2.length = _
  rw [h1]
  exact hperm.length_eq

/-- Witness for C1 at the example of the spec. -/
theorem lookup_matches_linear_scan_witness :
    ((lookupSeedBoth (buildIndex exGenome 4 1) exSeed).1.2).Perm
        (occurrencesS exGenome 4 exSeed)
    ∧ ((lookupSeedBoth (buildIndex exGenome 4 1) exSeed).1.2).Nodup
    ∧ (lookupSeedBoth (buildIndex exGenome 4 1) exSeed).1.1
        = (occurrencesS exGenome 4 exSeed).length :=
  lookup_matches_linear_scan exGenome 4 1 exSeed (by decide) (by decide) rfl rfl

/-- C2: when BuildIndexToDirectory succeeds, loading the written directory
yields an index whose lookup results coincide with those of the in-memory
just-built index, for every seed present in the genome. -/
theorem roundtrip_lookup (g : List Base) (L ks t : Nat) (dir : List Nat) (s : List Base)
    (h : BuildIndexToDirectory g L ks t = some dir) (hs : occurrencesS g L s ≠ []) :
    ∃ idx, loadFromDirectory dir = some idx
      ∧ lookupSeedBoth idx s = lookupSeedBoth (buildIndexThreaded g L ks t) s := by
  rw [BuildIndexToDirectory] at h
  split at h
  · exact absurd h (by simp)
  · obtain rfl : encodeIndex (buildIndexThreaded g L ks t) = dir := Option.some.inj h
    exact ⟨_, load_encode _ (buildIndexFromPairs_tables_len g L ks _), rfl⟩

/-- Witness for C2 on a concrete genome and a seed present in it. -/
theorem roundtrip_lookup_witness :
    ∃ idx, loadFromDirectory (encodeIndex (buildIndexThreaded exG2 2 1 1)) = some idx
      ∧ lookupSeedBoth idx exG2 = lookupSeedBoth (buildIndexThreaded exG2 2 1 1) exG2 :=
  roundtrip_lookup exG2 2 1 1 _ exG2 rfl (by decide)

/-- C3: the overflow run of every seed occurring more than once is reached
through a slot value above the base count and is sorted in strictly
decreasing position order. -/
theorem overflow_runs_sorted (g : List Base) (L ks v : Nat)
    (h : 2 ≤ (occurrencesV g L v).length) :
    ∃ raw, rawLookup (buildIndex g L ks) v = some raw
      ∧ g.length < raw
      ∧ List.Sorted (fun a b => a > b) (overflowHits (buildIndex g L ks) raw) := by
  rcases build_char g L ks v with ⟨h1, _⟩ | ⟨p, h1, _, _⟩ | ⟨raw, h1, h2, h3, h4⟩
  · rw [h1] at h; simp at h
  · rw [h1] at h; simp at h
  · refine ⟨raw, h2, h3, ?_⟩
    rw [h4]
    exact sortDesc_sorted_gt _ (List.Nodup.filter _ (List.nodup_range _))

/-- Witness for C3 at the repeated seed ACGT of the example genome. -/
theorem overflow_runs_sorted_witness :
    ∃ raw, rawLookup (buildIndex exGenome 4 1) (seedValue exSeed) = some raw
      ∧ exGenome.length < raw
      ∧ List.Sorted (fun a b => a > b)
          (overflowHits (buildIndex exGenome 4 1) raw) :=
  overflow_runs_sorted exGenome 4 1 (seedValue exSeed) (by decide)

/-- C4: a seed value that does not occur in the genome yields the empty
hit list, a normal outcome; the reverse complement is looked up
independently and can have a different, non-zero count, as the concrete
example genome GTT with query seed AAC shows. -/
theorem absent_seed_zero_hits :
    (∀ (g : List Base) (L ks v : Nat), occurrencesV g L v = [] →
        lookupHits (buildIndex g L ks) v = [])
    ∧ (lookupSeedBoth (buildIndex [Base.G, Base.T, Base.T] 3 1)
        [Base.A, Base.A, Base.C]).1 = (0, [])
    ∧ (lookupSeedBoth (buildIndex [Base.G, Base.T, Base.T] 3 1)
        [Base.A, Base.A, Base.C]).2 = (1, [0]) := by
  refine ⟨?_, by decide, by decide⟩
  intro g L ks v h
  rw [lookupHits_buildIndex, h, sortDesc_nil]

/-- Witness for C4: the universal part applied at a concrete absent seed. -/
theorem absent_seed_zero_hits_witness :
    lookupHits (buildIndex [Base.A] 1 1) 1 = [] :=
  absent_seed_zero_hits.1 [Base.A] 1 1 1 (by decide)

/-- C5: loading a directory whose metadata carries a major format version
different from the understood one fails the whole load. -/
theorem load_version_mismatch (major minor L ks nT ovfSize nB : Nat) (rest : List Nat)
    (h : major ≠ GenomeIndexFormatMajorVersion) :
    loadFromDirectory (major :: minor :: L :: ks :: nT :: ovfSize :: nB :: rest)
      = none := by
  rw [loadFromDirectory, if_neg h]

/-- Witness for C5 at major version 2. -/
theorem load_version_mismatch_witness :
    loadFromDirectory (2 :: 0 :: 4 :: 1 :: 1 :: 0 :: 10 :: []) = none :=
  load_version_mismatch 2 0 4 1 1 0 10 [] (by decide)

/-- C6: a seed length above 32 or a key size above 8 is rejected before
any indexing work, the call returns failure. -/
theorem build_rejects_invalid_config (g : List Base) (L ks t : Nat)
    (h : largestSizeTable < L ∨ largestKeySize < ks) :
    BuildIndexToDirectory g L ks t = none := by
  rw [BuildIndexToDirectory, if_pos h]

/-- Witness for C6 at seed length 33 and at key size 9. -/
theorem build_rejects_invalid_config_witness :
    BuildIndexToDirectory [] 33 1 1 = none ∧ BuildIndexToDirectory [] 4 9 1 = none :=
  ⟨build_rejects_invalid_config [] 33 1 1 (by decide),
   build_rejects_invalid_config [] 4 9 1 (by decide)⟩

/-- C7: building with several threads and building with one thread give
indexes with identical lookup results for every seed. -/
theorem threads_same_results (g : List Base) (L ks t : Nat) (ht : 2 ≤ t)
    (s : List Base) :
    lookupSeedBoth (buildIndexThreaded g L ks t) s
      = lookupSeedBoth (buildIndexThreaded g L ks 1) s := by
  rw [buildIndexThreaded, buildIndexThreaded, threadScan_eq g L t (by omega),
    threadScan_eq g L 1 (le_refl 1)]

/-- Witness for C7 with three threads on the example genome. -/
theorem threads_same_results_witness :
    lookupSeedBoth (buildIndexThreaded exGenome 4 1 3) exSeed
      = lookupSeedBoth (buildIndexThreaded exGenome 4 1 1) exSeed :=
  threads_same_results exGenome 4 1 3 (by decide) exSeed

/-- C8: the range-restricted lookup returns exactly the positions of the
unrestricted lookup lying in the requested interval, in the same relative
order, for the seed and for its reverse complement. -/
theorem range_lookup_is_filter (g : List Base) (L ks : Nat) (s : List Base)
    (minLocation maxLocation : Nat) (h : minLocation ≤ maxLocation) :
    (lookupSeedBothRange (buildIndex g L ks) s minLocation maxLocation).1.2
      = ((lookupSeedBoth (buildIndex g L ks) s).1.2).filter
          (fun p => decide (minLocation ≤ p ∧ p ≤ maxLocation))
    ∧ (lookupSeedBothRange (buildIndex g L ks) s minLocation maxLocation).2.2
      = ((lookupSeedBoth (buildIndex g L ks) s).2.2).filter
          (fun p => decide (minLocation ≤ p ∧ p ≤ maxLocation)) :=
  ⟨lookupHitsRange_filter g L ks (seedValue s) minLocation maxLocation,
   lookupHitsRange_filter g L ks (seedValue (reverseComplement s)) minLocation maxLocation⟩

/-- Witness for C8 on the example genome with range 1 to 8. -/
theorem range_lookup_is_filter_witness :
    (lookupSeedBothRange (buildIndex exGenome 4 1) exSeed 1 8).1.2
      = ((lookupSeedBoth (buildIndex exGenome 4 1) exSeed).1.2).filter
          (fun p => decide (1 ≤ p ∧ p ≤ 8))
    ∧ (lookupSeedBothRange (buildIndex exGenome 4 1) exSeed 1 8).2.2
      = ((lookupSeedBoth (buildIndex exGenome 4 1) exSeed).2.2).filter
          (fun p => decide (1 ≤ p ∧ p ≤ 8)) :=
  range_lookup_is_filter exGenome 4 1 exSeed 1 8 (by decide)

/-- C9: every stored slot value resolves to exactly one of the two cases,
a direct position below the base count of a seed occurring once, or an
overflow reference strictly above the base count of a seed occurring more
than once, and the two cases exclude each other. -/
theorem slot_resolution_unambiguous (g : List Base) (L ks v raw : Nat)
    (h : rawLookup (buildIndex g L ks) v = some raw) :
    ((raw < g.length ∧ occurrencesV g L v = [raw]) ∨
      (g.length < raw ∧ 2 ≤ (occurrencesV g L v).length
        ∧ overflowHits (buildIndex g L ks) raw = sortDesc (occurrencesV g L v)))
    ∧ ¬ (raw < g.length ∧ g.length < raw) := by
  refine ⟨?_, by omega⟩
  rcases build_char g L ks v with ⟨h1, h2⟩ | ⟨p, h1, h2, h3⟩ | ⟨raw2, h1, h2, h3, h4⟩
  · rw [h2] at h
    exact absurd h (by simp)
  · obtain rfl : p = raw := Option.some.inj (h2.symm.trans h)
    exact Or.inl ⟨h3, h1⟩
  · obtain rfl : raw2 = raw := Option.some.inj (h2.symm.trans h)
    exact Or.inr ⟨h3, h1, h4⟩

/-- Witness for C9 at the unique seed AC of a two-base genome. -/
theorem slot_resolution_unambiguous_witness :
    ((0 < exG2.length ∧ occurrencesV exG2 2 1 = [0]) ∨
      (exG2.length < 0 ∧ 2 ≤ (occurrencesV exG2 2 1).length
        ∧ overflowHits (buildIndex exG2 2 1) 0 = sortDesc (occurrencesV exG2 2 1)))
    ∧ ¬ (0 < exG2.length ∧ exG2.length < 0) :=
  slot_resolution_unambiguous exG2 2 1 1 0 (by decide)

/-- C10: the overloads of lookupSeed that omit the reverse complement
return exactly the forward half of the overloads that include it, both
unrestricted and range restricted. -/
theorem forward_overload_agrees (idx : GenomeIndex) (s : List Base)
    (minLocation maxLocation : Nat) :
    lookupSeedFwd idx s = (lookupSeedBoth idx s).1
    ∧ lookupSeedFwdRange idx s minLocation maxLocation
        = (lookupSeedBothRange idx s minLocation maxLocation).1 :=
  ⟨rfl, rfl⟩

end SnapIndex
